import Mathlib

/-!
Shallow embedding of `src/static_monte_carlo.py` (Monte Carlo methods from
Fusai–Roncoroni, chapter 1): a linear congruential uniform generator, the
stratified / exponential / Box–Muller samplers built on it, the Monte Carlo
mean estimator and the efficiency selection rule.

Modelling conventions:
- Python ints are `ℤ` (`%` on a positive modulus is `Int.emod`, which agrees
  with Python `%`); exact fractions are `ℚ`; values produced through
  transcendental functions (`log`, `cos`, `sin`, `sqrt`) live in `ℝ`.
- A generator is embedded as the function from draw index to the value of
  the corresponding `next` call: index `n` is the `(n+1)`-th draw.
- Failures (Python exceptions) are `Except MCError`; the constructors carry
  the error taxonomy of the design (invalid seed, invalid sample size,
  logarithm domain error, empty input).
-/

namespace StaticMonteCarlo

/-- Error kinds of the design: seed outside `[0, m)` (the `assert` on line 78),
non-positive sample count (empty `mean` on line 30), logarithm of a
non-positive value (`math.log`, lines 129 and 162), and minimum of an empty
collection (`min` on line 49). -/
inductive MCError where
  | invalidSeedError
  | invalidSampleSizeError
  | domainError
  | emptyInputError
deriving DecidableEq

/-- Line 79-80: `def modulus(x): return (a * x + c) % m`. -/
def modulus (a m c x : ℤ) : ℤ := (a * x + c) % m

/-- The integer state of the stream after `n` transitions of the recursion
`x1 = (a * x0 + c) % m` (lines 81-82); `lcg a m c x0 0` is the seed itself. -/
def lcg (a m c x0 : ℤ) : ℕ → ℤ
  | 0 => x0
  | n + 1 => modulus a m c (lcg a m c x0 n)

/-- The value of the `(n+1)`-th `next` call on `uniform_sampling(x0, a, m, c)`:
the state is advanced once and `x0 / m` is yielded (lines 81-83). -/
def uniform_sampling (x0 a m c : ℤ) (n : ℕ) : ℚ :=
  (lcg a m c x0 (n + 1) : ℚ) / (m : ℚ)

/-- Line 77: `x0 = x0 or datetime.now().microsecond`. A missing seed — and
also the falsy explicit seed `0` — is replaced by the wall-clock microsecond
component, modelled as an explicit `clock` argument. -/
def resolveSeed (seed : Option ℤ) (clock : ℤ) : ℤ :=
  match seed with
  | none => clock
  | some x => if x = 0 then clock else x

/-- The stream as constructed (lines 77-83): the seed is resolved against the
clock, the `assert x0 >= 0 and x0 < m` guard on line 78 is the invalid-seed
failure, and afterwards draw `n` is `uniform_sampling`. -/
def uniform_stream (seed : Option ℤ) (clock a m c : ℤ) (n : ℕ) :
    Except MCError ℚ :=
  let x0 := resolveSeed seed clock
  if 0 ≤ x0 ∧ x0 < m then .ok (uniform_sampling x0 a m c n)
  else .error .invalidSeedError

/-- Line 30: `statistics.mean`, which fails on an empty sequence and returns
the exact sum divided by the length otherwise. -/
def mean (xs : List ℚ) : Except MCError ℚ :=
  if xs.isEmpty then .error .invalidSampleSizeError
  else .ok (xs.sum / (xs.length : ℚ))

/-- Lines 29-30: `mean(next(gen) for i in range(n))` over an arbitrary
producer `gen`; `range(n)` is empty whenever `n ≤ 0`. -/
def monte_carlo (n : ℤ) (gen : ℕ → ℚ) : Except MCError ℚ :=
  mean ((List.range n.toNat).map gen)

/-- Lines 48-49: products `d[0] * d[1]`, then `(result.index(min(result)),
min(result))`; `min` of an empty tuple is the empty-input failure. -/
def efficiency_rule (data : List (ℚ × ℚ)) : Except MCError (ℕ × ℚ) :=
  let result := data.map fun d => d.1 * d.2
  match result.min? with
  | none => .error .emptyInputError
  | some mn => .ok (result.indexOf mn, mn)

/-- Lines 105-106: `((next(u) + i) / M for j in range(k) for i in range(M))`.
The nested comprehension yields the bin indices `i` in order; `enum` pairs
each element with its position, which is exactly the number of preceding
`next(u)` calls, so position `p` consumes draw `p` of the owned stream. -/
def stratified_sampling (M k : ℕ) (x0 a m c : ℤ) : List ℚ :=
  (((List.range k).flatMap fun _ => List.range M).enum).map
    fun pi => (uniform_sampling x0 a m c pi.1 + (pi.2 : ℚ)) / (M : ℚ)

/-- Python `math.log`, which raises a domain error on non-positive input
(lines 129 and 159-162) and is the real logarithm on positive input. -/
noncomputable def safeLog (u : ℚ) : Except MCError ℝ :=
  if 0 < u then .ok (Real.log (u : ℝ)) else .error .domainError

/-- Lines 127-129: draw `n` of `exponential_sampling(lambda_, x0, a, m, c)`
is `-(1 / lambda_) * log(next(u))` on the `(n+1)`-th uniform draw. -/
noncomputable def exponential_sampling (lambda_ : ℚ) (x0 a m c : ℤ) (n : ℕ) :
    Except MCError ℝ :=
  (safeLog (uniform_sampling x0 a m c n)).map
    fun l => -(1 / (lambda_ : ℝ)) * l

/-- Lines 157-164: emission `n` of `normal_sampling` consumes the two
consecutive uniforms `u1 = next(u)` and `u2 = next(u)` (draw indices `2n` and
`2n+1`) and yields the Box–Muller pair. -/
noncomputable def normal_sampling (x0 a m c : ℤ) (n : ℕ) :
    Except MCError (ℝ × ℝ) :=
  let u1 := uniform_sampling x0 a m c (2 * n)
  let u2 := uniform_sampling x0 a m c (2 * n + 1)
  (safeLog u1).map fun l =>
    (Real.sqrt (-2 * l) * Real.cos (2 * Real.pi * (u2 : ℝ)),
     Real.sqrt (-2 * l) * Real.sin (2 * Real.pi * (u2 : ℝ)))

/-- The rational `q` rounds to the binary64 value `M / 2 ^ k`: the mantissa
is in the normal range `(2^52, 2^53)` and `q` is strictly within half an ulp,
so `M / 2 ^ k` is the unique nearest double-precision number to `q`. -/
def nearestB64 (q : ℚ) (M k : ℕ) : Prop :=
  2 ^ 52 < M ∧ M < 2 ^ 53 ∧ |q - (M : ℚ) / 2 ^ k| < 1 / 2 ^ (k + 1)

instance : Std.Antisymm fun (a b : ℚ) => a ≤ b :=
  ⟨fun h1 h2 => le_antisymm h1 h2⟩

lemma rat_min?_eq_some_iff {xs : List ℚ} {a : ℚ} :
    xs.min? = some a ↔ a ∈ xs ∧ ∀ b ∈ xs, a ≤ b :=
  List.min?_eq_some_iff (fun _ => le_refl _) (fun _ _ => min_choice _ _)
    (fun _ _ _ => le_min_iff)

lemma lcg_step_bounds (a m c x0 : ℤ) (hm : 0 < m) (n : ℕ) :
    0 ≤ lcg a m c x0 (n + 1) ∧ lcg a m c x0 (n + 1) < m := by
  refine ⟨Int.emod_nonneg _ (ne_of_gt hm), Int.emod_lt_of_pos _ hm⟩

lemma uniform_sampling_mem_Ico (x0 a m c : ℤ) (hm : 0 < m) (n : ℕ) :
    0 ≤ uniform_sampling x0 a m c n ∧ uniform_sampling x0 a m c n < 1 := by
  obtain ⟨hs0, hs1⟩ := lcg_step_bounds a m c x0 hm n
  have hmq : (0 : ℚ) < (m : ℚ) := by exact_mod_cast hm
  constructor
  · exact div_nonneg (by exact_mod_cast hs0) hmq.le
  · exact (div_lt_one hmq).2 (by exact_mod_cast hs1)

/-- Claim C5: for every valid seed `x0` in `[0, m)`, every value emitted by
the uniform stream satisfies `0 ≤ value < 1`. -/
theorem uniform_values_in_unit_interval (x0 a m c : ℤ) (n : ℕ)
    (h0 : 0 ≤ x0) (h1 : x0 < m) :
    0 ≤ uniform_sampling x0 a m c n ∧ uniform_sampling x0 a m c n < 1 :=
  uniform_sampling_mem_Ico x0 a m c (lt_of_le_of_lt h0 h1) n

/-- Witness for C5 at seed 100 with the default parameters. -/
theorem uniform_values_in_unit_interval_witness :
    (0 : ℤ) ≤ 100 ∧ (100 : ℤ) < 2147483399 ∧
      (0 ≤ uniform_sampling 100 40692 2147483399 0 0 ∧
        uniform_sampling 100 40692 2147483399 0 0 < 1) :=
  ⟨by norm_num, by norm_num,
    uniform_values_in_unit_interval 100 40692 2147483399 0 0
      (by norm_num) (by norm_num)⟩

/-- Claim C1, counterexample: seed `0` is a valid seed (`0 ≤ 0 < m`), yet the
source replaces a falsy seed by the construction-time clock microsecond
(line 77, `x0 = x0 or datetime.now().microsecond`), so two streams built with
seed `0` at clock values 1 and 2 already differ at their first draw. -/
theorem seed_zero_stream_not_deterministic :
    ((0 : ℤ) ≤ 0 ∧ (0 : ℤ) < 2147483399) ∧
      uniform_stream (some 0) 1 40692 2147483399 0 0 ≠
        uniform_stream (some 0) 2 40692 2147483399 0 0 := by
  refine ⟨⟨le_refl 0, by norm_num⟩, ?_⟩
  norm_num [uniform_stream, resolveSeed, uniform_sampling, lcg, modulus]

/-- Claim C1, amended: for every seed `x0` with `0 < x0 < m` and fixed
`(a, m, c)`, two streams constructed with the same seed and parameters agree
on every draw, whatever the construction-time clock values were. -/
theorem nonzero_seed_stream_deterministic (x0 a m c clock1 clock2 : ℤ)
    (n : ℕ) (h0 : 0 < x0) (h1 : x0 < m) :
    uniform_stream (some x0) clock1 a m c n =
      uniform_stream (some x0) clock2 a m c n := by
  simp [uniform_stream, resolveSeed, h0.ne']

/-- Witness for the amended C1 at seed 100, clocks 1 and 2. -/
theorem nonzero_seed_stream_deterministic_witness :
    ((0 : ℤ) < 100 ∧ (100 : ℤ) < 2147483399) ∧
      uniform_stream (some 100) 1 40692 2147483399 0 0 =
        uniform_stream (some 100) 2 40692 2147483399 0 0 :=
  ⟨⟨by norm_num, by norm_num⟩,
    nonzero_seed_stream_deterministic 100 40692 2147483399 0 1 2 0
      (by norm_num) (by norm_num)⟩

/-- Claim C2: for every producer and every integer `n`, the estimator fails
with the invalid-sample-size error when `n ≤ 0`, and when `0 < n` it draws
exactly the first `n` values of the producer and returns their arithmetic
mean. -/
theorem monte_carlo_spec (n : ℤ) (gen : ℕ → ℚ) :
    (n ≤ 0 → monte_carlo n gen = .error .invalidSampleSizeError) ∧
    (0 < n → monte_carlo n gen =
      .ok ((∑ i ∈ Finset.range n.toNat, gen i) / (n : ℚ))) := by
  constructor
  · intro hn
    simp [monte_carlo, mean, Int.toNat_of_nonpos hn]
  · intro hn
    have hne : n.toNat ≠ 0 := by
      simpa [Int.toNat_eq_zero] using not_le.2 hn
    have hsum : ((List.range n.toNat).map gen).sum =
        ∑ i ∈ Finset.range n.toNat, gen i := rfl
    have hcast : ((n.toNat : ℕ) : ℚ) = (n : ℚ) := by
      exact_mod_cast congrArg (fun z : ℤ => (z : ℚ))
        (Int.toNat_of_nonneg hn.le)
    simp [monte_carlo, mean, List.isEmpty_iff, hne, hsum, hcast]

/-- Witness for C2 at `n = 3` with the producer `i ↦ i`. -/
theorem monte_carlo_spec_witness :
    (0 : ℤ) < 3 ∧ monte_carlo 3 (fun i => (i : ℚ)) =
      .ok ((∑ i ∈ Finset.range (3 : ℤ).toNat, (i : ℚ)) / ((3 : ℤ) : ℚ)) :=
  ⟨by norm_num, (monte_carlo_spec 3 (fun i => (i : ℚ))).2 (by norm_num)⟩

/-- Claim C4: the efficiency selector applied to the empty collection fails
with the empty-input error. -/
theorem efficiency_rule_empty :
    efficiency_rule [] = .error .emptyInputError := rfl

/-- Claim C3: on every non-empty collection the efficiency selector returns
an index `i` and value `mn` such that `mn` is the product at `i`, `mn` is a
lower bound of all products, and every product strictly before `i` exceeds
`mn` (ties broken by lowest index); moreover on
`((0.12, 1.34), (0.01, 3.46))` it returns `(1, 0.0346)`. -/
theorem efficiency_rule_spec :
    (∀ data : List (ℚ × ℚ), data ≠ [] →
      ∃ i mn, efficiency_rule data = .ok (i, mn) ∧ i < data.length ∧
        (∃ d : ℚ × ℚ, data[i]? = some d ∧ d.1 * d.2 = mn) ∧
        (∀ (j : ℕ) (d : ℚ × ℚ), data[j]? = some d → mn ≤ d.1 * d.2) ∧
        (∀ (j : ℕ) (d : ℚ × ℚ), j < i → data[j]? = some d →
          mn < d.1 * d.2)) ∧
    efficiency_rule [(12/100, 134/100), (1/100, 346/100)] =
      .ok (1, 346/10000) := by
  constructor
  · intro data hdata
    have hrne : (data.map fun d => d.1 * d.2) ≠ [] := by
      simpa using hdata
    obtain ⟨mn, hmn⟩ : ∃ mn, (data.map fun d => d.1 * d.2).min? = some mn := by
      cases hr : data.map fun d => d.1 * d.2 with
      | nil => exact absurd hr hrne
      | cons a as => exact ⟨as.foldl min a, rfl⟩
    obtain ⟨hmem, hle⟩ := rat_min?_eq_some_iff.1 hmn
    have hilen : (data.map fun d => d.1 * d.2).indexOf mn <
        (data.map fun d => d.1 * d.2).length := List.indexOf_lt_length.2 hmem
    have hid : (data.map fun d => d.1 * d.2).indexOf mn < data.length := by
      simpa using hilen
    refine ⟨(data.map fun d => d.1 * d.2).indexOf mn, mn, ?_, hid, ?_, ?_, ?_⟩
    · simp only [efficiency_rule, hmn]
    · refine ⟨data[(data.map fun d => d.1 * d.2).indexOf mn],
        List.getElem?_eq_getElem hid, ?_⟩
      have hgm := List.getElem_indexOf hilen
      simp only [List.getElem_map] at hgm
      exact hgm
    · intro j d hjd
      obtain ⟨hj, hdj⟩ := List.getElem?_eq_some.1 hjd
      have hm : d.1 * d.2 ∈ data.map fun d => d.1 * d.2 := by
        rw [← hdj]
        exact List.mem_map_of_mem _ (List.getElem_mem hj)
      exact hle _ hm
    · intro j d hji hjd
      obtain ⟨hj, hdj⟩ := List.getElem?_eq_some.1 hjd
      have hjr : j < (data.map fun d => d.1 * d.2).length := by simpa using hj
      have hne : (data.map fun d => d.1 * d.2)[j] ≠ mn := by
        have hb := List.not_of_lt_findIdx (p := fun b => b == mn) hji
        simpa using hb
      have hlej := hle _ (List.getElem_mem hjr)
      have hrj : (data.map fun d => d.1 * d.2)[j] = d.1 * d.2 := by
        simp [hdj]
      rw [hrj] at hne hlej
      exact lt_of_le_of_ne hlej (Ne.symm hne)
  · have hmap : ([((12:ℚ)/100, (134:ℚ)/100), ((1:ℚ)/100, (346:ℚ)/100)].map
        fun d => d.1 * d.2) = [201/1250, 173/5000] := by
      norm_num
    have hmin : List.min? [(201:ℚ)/1250, 173/5000] = some (173/5000) := by
      norm_num [List.min?, List.foldl, min_def]
    have hidx : List.indexOf ((173:ℚ)/5000) [(201:ℚ)/1250, 173/5000] = 1 := by
      rw [List.indexOf_cons_ne _ (by norm_num), List.indexOf_cons_self]
    simp only [efficiency_rule, hmap, hmin, hidx]
    norm_num

/-- Witness for C3: the non-emptiness hypothesis discharged on a concrete
singleton collection. -/
theorem efficiency_rule_spec_witness :
    ([((12:ℚ)/100, (134:ℚ)/100)] : List (ℚ × ℚ)) ≠ [] ∧
      (∃ i mn, efficiency_rule [((12:ℚ)/100, (134:ℚ)/100)] = .ok (i, mn) ∧
        i < ([((12:ℚ)/100, (134:ℚ)/100)] : List (ℚ × ℚ)).length ∧
        (∃ d : ℚ × ℚ,
          ([((12:ℚ)/100, (134:ℚ)/100)] : List (ℚ × ℚ))[i]? = some d ∧
            d.1 * d.2 = mn) ∧
        (∀ (j : ℕ) (d : ℚ × ℚ),
          ([((12:ℚ)/100, (134:ℚ)/100)] : List (ℚ × ℚ))[j]? = some d →
            mn ≤ d.1 * d.2) ∧
        (∀ (j : ℕ) (d : ℚ × ℚ), j < i →
          ([((12:ℚ)/100, (134:ℚ)/100)] : List (ℚ × ℚ))[j]? = some d →
            mn < d.1 * d.2)) :=
  ⟨by simp, efficiency_rule_spec.1 _ (by simp)⟩

lemma flatMap_const_range (k M : ℕ) :
    ((List.range k).flatMap fun _ => List.range M) =
      (List.range (k * M)).map fun p => p % M := by
  induction k with
  | zero => simp
  | succ k ih =>
    rw [List.range_succ, List.flatMap_append, ih, Nat.succ_mul, List.range_add,
      List.map_append]
    congr 1
    simp only [List.flatMap_cons, List.flatMap_nil, List.append_nil,
      List.map_map]
    symm
    refine List.ext_getElem (by simp) ?_
    intro p h1 h2
    simp only [List.getElem_map, List.getElem_range, Function.comp]
    rw [Nat.mul_comm k M, Nat.mul_add_mod]
    exact Nat.mod_eq_of_lt (by simpa using h2)

lemma stratified_length (M k : ℕ) (x0 a m c : ℤ) :
    (stratified_sampling M k x0 a m c).length = k * M := by
  simp [stratified_sampling, flatMap_const_range]

lemma stratified_getElem (M k : ℕ) (x0 a m c : ℤ) (p : ℕ) (hp : p < k * M) :
    (stratified_sampling M k x0 a m c)[p]? =
      some ((uniform_sampling x0 a m c p + ((p % M : ℕ) : ℚ)) / (M : ℚ)) := by
  have hlen : (stratified_sampling M k x0 a m c).length = k * M :=
    stratified_length M k x0 a m c
  rw [List.getElem?_eq_getElem (hlen ▸ hp)]
  congr 1
  simp [stratified_sampling, flatMap_const_range, List.getElem_map,
    List.getElem_enum, List.getElem_range]

/-- Claim C6: for bin count `M > 0`, batch count `k > 0` and a valid seed,
the stratified sampler yields exactly `M * k` values; the value at position
`j * M + i` equals `(u + i) / M` where `u` is the `(j*M+i+1)`-th raw uniform
draw, and it lies in `[i/M, (i+1)/M)`. -/
theorem stratified_sampling_spec (M k : ℕ) (x0 a m c : ℤ)
    (hM : 0 < M) (hk : 0 < k) (h0 : 0 ≤ x0) (h1 : x0 < m) :
    (stratified_sampling M k x0 a m c).length = M * k ∧
    ∀ j i : ℕ, j < k → i < M →
      (stratified_sampling M k x0 a m c)[j * M + i]? =
        some ((uniform_sampling x0 a m c (j * M + i) + (i : ℚ)) / (M : ℚ)) ∧
      (i : ℚ) / (M : ℚ) ≤
        (uniform_sampling x0 a m c (j * M + i) + (i : ℚ)) / (M : ℚ) ∧
      (uniform_sampling x0 a m c (j * M + i) + (i : ℚ)) / (M : ℚ) <
        ((i : ℚ) + 1) / (M : ℚ) := by
  refine ⟨by rw [stratified_length, Nat.mul_comm], ?_⟩
  intro j i hj hi
  have hp : j * M + i < k * M := by
    have hjk : j + 1 ≤ k := hj
    calc j * M + i < j * M + M := by omega
    _ = (j + 1) * M := by ring
    _ ≤ k * M := Nat.mul_le_mul_right M hjk
  have hmod : (j * M + i) % M = i := by
    rw [Nat.mul_comm j M, Nat.mul_add_mod]
    exact Nat.mod_eq_of_lt hi
  have hget := stratified_getElem M k x0 a m c (j * M + i) hp
  rw [hmod] at hget
  refine ⟨hget, ?_, ?_⟩
  · have hMq : (0 : ℚ) < (M : ℚ) := by exact_mod_cast hM
    have hu := (uniform_sampling_mem_Ico x0 a m c (lt_of_le_of_lt h0 h1)
      (j * M + i)).1
    apply div_le_div_of_nonneg_right ?_ hMq.le
    linarith
  · have hMq : (0 : ℚ) < (M : ℚ) := by exact_mod_cast hM
    have hu := (uniform_sampling_mem_Ico x0 a m c (lt_of_le_of_lt h0 h1)
      (j * M + i)).2
    apply div_lt_div_of_pos_right ?_ hMq
    linarith

/-- Witness for C6 with the doctest parameters `M = 10`, `k = 5`, seed 100. -/
theorem stratified_sampling_spec_witness :
    ((0 : ℕ) < 10 ∧ (0 : ℕ) < 5 ∧ (0 : ℤ) ≤ 100 ∧ (100 : ℤ) < 2147483399) ∧
      ((stratified_sampling 10 5 100 40692 2147483399 0).length = 10 * 5 ∧
      ∀ j i : ℕ, j < 5 → i < 10 →
        (stratified_sampling 10 5 100 40692 2147483399 0)[j * 10 + i]? =
          some ((uniform_sampling 100 40692 2147483399 0 (j * 10 + i) +
            (i : ℚ)) / (10 : ℚ)) ∧
        (i : ℚ) / (10 : ℚ) ≤
          (uniform_sampling 100 40692 2147483399 0 (j * 10 + i) + (i : ℚ)) /
            (10 : ℚ) ∧
        (uniform_sampling 100 40692 2147483399 0 (j * 10 + i) + (i : ℚ)) /
            (10 : ℚ) < ((i : ℚ) + 1) / (10 : ℚ)) :=
  ⟨⟨by norm_num, by norm_num, by norm_num, by norm_num⟩,
    stratified_sampling_spec 10 5 100 40692 2147483399 0
      (by norm_num) (by norm_num) (by norm_num) (by norm_num)⟩

/-- Claim C7: for every `lambda_ > 0`, the exponential sampler emits
`-(1/lambda_) * ln u` on each fresh uniform draw `u > 0`, and fails with a
domain error when `u` is exactly 0. -/
theorem exponential_sampling_spec (lambda_ : ℚ) (x0 a m c : ℤ) (n : ℕ)
    (hl : 0 < lambda_) :
    (0 < uniform_sampling x0 a m c n →
      exponential_sampling lambda_ x0 a m c n =
        .ok (-(1 / (lambda_ : ℝ)) *
          Real.log ((uniform_sampling x0 a m c n : ℚ) : ℝ))) ∧
    (uniform_sampling x0 a m c n = 0 →
      exponential_sampling lambda_ x0 a m c n = .error .domainError) := by
  constructor
  · intro hu
    simp [exponential_sampling, safeLog, Except.map, hu]
  · intro hu
    simp [exponential_sampling, safeLog, Except.map, hu]

/-- Witness for C7 with `lambda_ = 1`, seed 100, first draw. -/
theorem exponential_sampling_spec_witness :
    ((0 : ℚ) < 1 ∧ 0 < uniform_sampling 100 40692 2147483399 0 0) ∧
      exponential_sampling 1 100 40692 2147483399 0 0 =
        .ok (-(1 / ((1 : ℚ) : ℝ)) *
          Real.log ((uniform_sampling 100 40692 2147483399 0 0 : ℚ) : ℝ)) :=
  ⟨⟨by norm_num, by norm_num [uniform_sampling, lcg, modulus]⟩,
    (exponential_sampling_spec 1 100 40692 2147483399 0 0 (by norm_num)).1
      (by norm_num [uniform_sampling, lcg, modulus])⟩

/-- Claim C8: emission `n` of the paired-normal sampler consumes exactly the
two consecutive uniforms of draw indices `2n` and `2n+1` and returns the
Box–Muller pair
`(sqrt(-2 ln u1) * cos(2 pi u2), sqrt(-2 ln u1) * sin(2 pi u2))`. -/
theorem normal_sampling_spec (x0 a m c : ℤ) (n : ℕ)
    (hu1 : 0 < uniform_sampling x0 a m c (2 * n)) :
    normal_sampling x0 a m c n =
      .ok (Real.sqrt (-2 *
          Real.log ((uniform_sampling x0 a m c (2 * n) : ℚ) : ℝ)) *
          Real.cos (2 * Real.pi *
            ((uniform_sampling x0 a m c (2 * n + 1) : ℚ) : ℝ)),
        Real.sqrt (-2 *
          Real.log ((uniform_sampling x0 a m c (2 * n) : ℚ) : ℝ)) *
          Real.sin (2 * Real.pi *
            ((uniform_sampling x0 a m c (2 * n + 1) : ℚ) : ℝ))) := by
  simp [normal_sampling, safeLog, Except.map, hu1]

/-- Witness for C8 at seed 100, first emission. -/
theorem normal_sampling_spec_witness :
    0 < uniform_sampling 100 40692 2147483399 0 (2 * 0) ∧
      normal_sampling 100 40692 2147483399 0 0 =
        .ok (Real.sqrt (-2 *
            Real.log ((uniform_sampling 100 40692 2147483399 0
              (2 * 0) : ℚ) : ℝ)) *
            Real.cos (2 * Real.pi *
              ((uniform_sampling 100 40692 2147483399 0 (2 * 0 + 1) : ℚ) : ℝ)),
          Real.sqrt (-2 *
            Real.log ((uniform_sampling 100 40692 2147483399 0
              (2 * 0) : ℚ) : ℝ)) *
            Real.sin (2 * Real.pi *
              ((uniform_sampling 100 40692 2147483399 0
                (2 * 0 + 1) : ℚ) : ℝ))) :=
  ⟨by norm_num [uniform_sampling, lcg, modulus],
    normal_sampling_spec 100 40692 2147483399 0 0
      (by norm_num [uniform_sampling, lcg, modulus])⟩

/-- Claim C9: with seed 100 and the default parameters, the exact first two
draws `4069200/2147483399` and `227664677/2147483399`, produced by IEEE-754
correctly rounded division, round to the same unique binary64 values as the
documented decimal literals `0.0018948691300220849` and
`0.10601463885868205`. -/
theorem first_two_draws_round_to_documented_doubles :
    nearestB64 (uniform_sampling 100 40692 2147483399 0 0)
      8738541473672517 62 ∧
    nearestB64 ((18948691300220849 : ℚ) / 10 ^ 19) 8738541473672517 62 ∧
    nearestB64 (uniform_sampling 100 40692 2147483399 0 1)
      7639159808956451 56 ∧
    nearestB64 ((10601463885868205 : ℚ) / 10 ^ 17) 7639159808956451 56 := by
  refine ⟨⟨by norm_num, by norm_num, ?_⟩, ⟨by norm_num, by norm_num, ?_⟩,
    ⟨by norm_num, by norm_num, ?_⟩, ⟨by norm_num, by norm_num, ?_⟩⟩ <;>
    rw [abs_lt] <;>
    constructor <;>
    norm_num [uniform_sampling, lcg, modulus]

lemma lcg_default_pos (x0 : ℤ) (h0 : 0 < x0) (h1 : x0 < 2147483399) :
    ∀ n : ℕ, 0 < lcg 40692 2147483399 0 x0 n ∧
      lcg 40692 2147483399 0 x0 n < 2147483399 := by
  intro n
  induction n with
  | zero => exact ⟨h0, h1⟩
  | succ n ih =>
    obtain ⟨hpos, hlt⟩ := ih
    have hm : (0 : ℤ) < 2147483399 := by norm_num
    have hnn : 0 ≤ lcg 40692 2147483399 0 x0 (n + 1) :=
      Int.emod_nonneg _ (by norm_num)
    refine ⟨?_, Int.emod_lt_of_pos _ hm⟩
    rcases lt_or_eq_of_le hnn with h | h
    · exact h
    · exfalso
      have hdvd : (2147483399 : ℤ) ∣ 40692 * lcg 40692 2147483399 0 x0 n := by
        have hz : (40692 * lcg 40692 2147483399 0 x0 n + 0) % 2147483399 = 0 :=
          h.symm
        rw [add_zero] at hz
        exact Int.dvd_of_emod_eq_zero hz
      have h2 : (2147483399 : ℤ) ∣
          1481316021 * (40692 * lcg 40692 2147483399 0 x0 n) :=
        hdvd.mul_left _
      have h4 : (2147483399 : ℤ) ∣
          (1481316021 * 40692 - 1) * lcg 40692 2147483399 0 x0 n :=
        Dvd.dvd.mul_right (by norm_num) _
      have h5 : (2147483399 : ℤ) ∣ lcg 40692 2147483399 0 x0 n := by
        have heq : 1481316021 * (40692 * lcg 40692 2147483399 0 x0 n) -
            (1481316021 * 40692 - 1) * lcg 40692 2147483399 0 x0 n =
            lcg 40692 2147483399 0 x0 n := by ring
        have hsub := dvd_sub h2 h4
        rwa [heq] at hsub
      exact absurd (Int.le_of_dvd hpos h5) (not_le.2 hlt)

/-- Claim C10: with the default parameters `a = 40692`, `m = 2147483399`,
`c = 0` and any explicit seed `0 < x0 < m`, the state stays nonzero after
every transition (`1481316021` is the modular inverse of the multiplier), so
every emitted uniform is strictly positive and the logarithm's domain-error
branch in the exponential and paired-normal samplers is unreachable. -/
theorem default_params_log_branch_unreachable (x0 : ℤ) (n : ℕ)
    (h0 : 0 < x0) (h1 : x0 < 2147483399) :
    0 < lcg 40692 2147483399 0 x0 (n + 1) ∧
    0 < uniform_sampling x0 40692 2147483399 0 n ∧
    (∀ lambda_ : ℚ, exponential_sampling lambda_ x0 40692 2147483399 0 n ≠
      .error .domainError) ∧
    normal_sampling x0 40692 2147483399 0 n ≠ .error .domainError := by
  have hstate := lcg_default_pos x0 h0 h1
  have hupos : ∀ j : ℕ, 0 < uniform_sampling x0 40692 2147483399 0 j := by
    intro j
    have hs := (hstate (j + 1)).1
    have hmq : (0 : ℚ) < 2147483399 := by norm_num
    exact div_pos (by exact_mod_cast hs) hmq
  refine ⟨(hstate (n + 1)).1, hupos n, ?_, ?_⟩
  · intro lambda_
    simp [exponential_sampling, safeLog, Except.map, hupos n]
  · simp [normal_sampling, safeLog, Except.map, hupos (2 * n)]

/-- Witness for C10 at seed 100, first draw. -/
theorem default_params_log_branch_unreachable_witness :
    ((0 : ℤ) < 100 ∧ (100 : ℤ) < 2147483399) ∧
      (0 < lcg 40692 2147483399 0 100 (0 + 1) ∧
      0 < uniform_sampling 100 40692 2147483399 0 0 ∧
      (∀ lambda_ : ℚ, exponential_sampling lambda_ 100 40692 2147483399 0 0 ≠
        .error .domainError) ∧
      normal_sampling 100 40692 2147483399 0 0 ≠ .error .domainError) :=
  ⟨⟨by norm_num, by norm_num⟩,
    default_params_log_branch_unreachable 100 0 (by norm_num) (by norm_num)⟩

end StaticMonteCarlo
